import Mathlib

/-!
Verification development for the minecraft-mappings generation scripts
(`1.21.6/scripts/generate-maps.py` and `1.21.6/scripts/generate-maps-full.py`).

Strings are modelled as `List Char` (`Str`); each line of the input mapping
file is one `Str` with its trailing newline removed (every operation the
scripts perform on a raw line -- `strip`, `startswith("    ")`,
`" -> " in line`, `endswith(":")` -- is insensitive to that removal, since
the separator and the markers contain no newline).  Python string builtins
(`strip`, `split`, `rsplit`, `replace`, `upper`, `isdigit` as used on
already-sanitized ASCII data) are modelled by the helper functions below,
and the two regular expressions with look-behind used by
`to_java_constant_name` are modelled by the equivalent single-pass
character transforms (both patterns consume disjoint ranges and their
look-behind inspects the original text, so the substitution is a
per-position transform).  The `while` loop that searches a free constant
name is modelled with fuel `declared.length + 1`, which is proved
sufficient below.  File system and network concerns of the scripts are out
of scope; the parse pass and the per-class constant computation are
embedded in full.
-/

/-- Strings of the scripts, as plain character lists. -/
abbrev Str := List Char

/-- Convert a Lean string literal to the `Str` model. -/
def str (s : String) : Str := s.data

/-- Python whitespace test for the ASCII whitespace characters
(`str.strip` with no argument). -/
def isSpaceB (c : Char) : Bool :=
  c == ' ' || c == '\t' || c == '\n' || c == '\r' || c == '\x0b' || c == '\x0c'

/-- ASCII lower-case letter test (the literal class `[a-z]`). -/
def isLowerB (c : Char) : Bool := decide ('a' ≤ c ∧ c ≤ 'z')

/-- ASCII upper-case letter test (the literal class `[A-Z]`). -/
def isUpperB (c : Char) : Bool := decide ('A' ≤ c ∧ c ≤ 'Z')

/-- ASCII digit test (the literal class `[0-9]`; the scripts only apply
`isdigit` to characters already restricted to `[a-zA-Z0-9_]`). -/
def isDigitB (c : Char) : Bool := decide ('0' ≤ c ∧ c ≤ '9')

/-- The character class `[a-zA-Z0-9_]` of the sanitizing regexes. -/
def allowedChar (c : Char) : Bool := isLowerB c || isUpperB c || isDigitB c || c == '_'

/-- One character of `re.sub(r'[^a-zA-Z0-9_]', '_', s)`. -/
def subChar (c : Char) : Char := if allowedChar c then c else '_'

/-- Does the string start with a digit (`s and s[0].isdigit()`)? -/
def startsWithDigit : Str → Bool
  | [] => false
  | c :: _ => isDigitB c

/-- Python `startswith`: does `p` occur at the head of the second argument? -/
def beginsWith : Str → Str → Bool
  | [], _ => true
  | _ :: _, [] => false
  | p :: ps, c :: cs => p == c && beginsWith ps cs

/-- Python `endswith`: does `p` occur at the end of the second argument? -/
def endsWith (p s : Str) : Bool := beginsWith p.reverse s.reverse

/-- Python `in`: does `p` occur contiguously anywhere in the second argument? -/
def hasSub (p : Str) : Str → Bool
  | [] => beginsWith p []
  | c :: t => beginsWith p (c :: t) || hasSub p t

/-- Split at the first occurrence of `p` (`s.split(p, 1)` when it finds an
occurrence): `some (before, after)`, or `none` when `p` does not occur. -/
def splitFirst (p : Str) : Str → Option (Str × Str)
  | [] => if beginsWith p [] then some ([], []) else none
  | c :: t =>
    if beginsWith p (c :: t) then some ([], List.drop p.length (c :: t))
    else (splitFirst p t).map (fun q => (c :: q.1, q.2))

/-- Fuelled worker for `splitAll`; fuel `s.length` is enough for any
non-empty separator. -/
def splitAllF (p : Str) : Nat → Str → List Str
  | 0, s => [s]
  | fuel + 1, s =>
    match splitFirst p s with
    | none => [s]
    | some (a, b) => a :: splitAllF p fuel b

/-- Python `s.split(p)` (all occurrences, left to right). -/
def splitAll (p s : Str) : List Str := splitAllF p s.length s

/-- Python `s.replace(p, r)` (all non-overlapping occurrences). -/
def replaceAll (p r s : Str) : Str := List.intercalate r (splitAll p s)

/-- Split on every occurrence of a single character (Python `split(',')`,
`split('.')`). -/
def splitOnChar (sep : Char) : Str → List Str
  | [] => [[]]
  | c :: t =>
    match splitOnChar sep t with
    | [] => [[]]
    | h :: r => if c == sep then [] :: h :: r else (c :: h) :: r

/-- Split at the last occurrence of the character `sep`:
`some (before, after)`, or `none` when absent. -/
def lastSplit (sep : Char) (s : Str) : Option (Str × Str) :=
  match splitFirst [sep] s.reverse with
  | none => none
  | some (x, y) => some (y.reverse, x.reverse)

/-- Python `split('.')[-1]`: the text after the last `sep`, or all of `s`. -/
def lastSeg (sep : Char) (s : Str) : Str := (splitOnChar sep s).getLastD []

/-- Python `rsplit(' ', 1)[-1]`: the text after the last space, or all of `s`. -/
def lastTok (s : Str) : Str :=
  match lastSplit ' ' s with
  | some q => q.2
  | none => s

/-- Python `s.strip()`. -/
def strip (s : Str) : Str :=
  ((s.dropWhile isSpaceB).reverse.dropWhile isSpaceB).reverse

/-- Python `s.rstrip(":")`: drop every trailing colon. -/
def rstripCol (s : Str) : Str := (s.reverse.dropWhile (fun c => c == ':')).reverse

/-- Model of `re.sub(r'^\d+:\d+:', '', s)`: drop a leading `digits:digits:`
line-range marker. -/
def stripLineRange (s : Str) : Str :=
  match List.span isDigitB s with
  | (d1, ':' :: r1) =>
    if d1 = [] then s
    else
      match List.span isDigitB r1 with
      | (d2, ':' :: r2) => if d2 = [] then s else r2
      | _ => s
  | _ => s

/-- Does `\s*\(` match at the head of `s`?  (`(` is not whitespace, so a
match must consume the whole leading whitespace run.) -/
def wsThenOpen (s : Str) : Bool :=
  match s.dropWhile isSpaceB with
  | '(' :: _ => true
  | _ => false

/-- Greedy back-tracking of `(\S+)\s*\(` at one position: try the group
lengths `k, k-1, ..., 1` over the maximal non-space run. -/
def findBest (run rest : Str) : Nat → Option Str
  | 0 => none
  | k + 1 =>
    let ok :=
      match List.drop (k + 1) run with
      | [] => wsThenOpen rest
      | c :: _ => c == '('
    if ok then some (List.take (k + 1) run) else findBest run rest k

/-- Attempt the regex `(\S+)\s*\(` at the head of `s`. -/
def tryAt (s : Str) : Option Str :=
  let run := s.takeWhile (fun c => !isSpaceB c)
  let rest := s.dropWhile (fun c => !isSpaceB c)
  if run = [] then none else findBest run rest run.length

/-- Model of `re.search(r"(\S+)\s*\(", s).group(1)`: leftmost position wins, greedy
group at that position. -/
def reSearch : Str → Option Str
  | [] => none
  | c :: t =>
    match tryAt (c :: t) with
    | some g => some g
    | none => reSearch t

/-- Model of `re.search(r'\((.*)\)', s).group(1)`: text between the first `(` and
the last `)` following it (`.*` is greedy), or `none` when absent. -/
def parenGroup (s : Str) : Option Str :=
  match splitFirst ['('] s with
  | none => none
  | some q =>
    match lastSplit ')' q.2 with
    | none => none
    | some g => some g.1

/-- Little-endian decimal digits of `n`, with structural fuel. -/
def digitsRevGo : Nat → Nat → List Nat
  | _, 0 => []
  | 0, _ + 1 => []
  | fuel + 1, n + 1 => ((n + 1) % 10) :: digitsRevGo fuel ((n + 1) / 10)

/-- The decimal string of `n` (Python `f"{n}"` for `n ≥ 1`). -/
def natStr (n : Nat) : Str := ((digitsRevGo n n).reverse).map (fun d => Char.ofNat (48 + d))

/-- The counter-suffixed candidate `f"{base}_{counter}"`. -/
def suffixed (b : Str) (k : Nat) : Str := b ++ '_' :: natStr k

/-- The `while const_name in declared:` search, counting up from `c` with
structural fuel.  The fuel value used by `freeName` is proved sufficient,
so the `0` fallback is never reached. -/
def probe (declared : List Str) (b : Str) : Nat → Nat → Str
  | _, 0 => b
  | c, fuel + 1 => if suffixed b c ∈ declared then probe declared b (c + 1) fuel else suffixed b c

/-- The collision-resolution scheme of both generation loops: the
candidate itself when unused, otherwise the first unused of
`base_2, base_3, ...`. -/
def freeName (declared : List Str) (b : Str) : Str :=
  if b ∈ declared then probe declared b 2 (declared.length + 1) else b

/-- The deduplication core shared by the field and method emission loops:
assign each candidate in order its `freeName`, recording assignments. -/
def dedup (declared : List Str) : List Str → List Str
  | [] => []
  | c :: rest =>
    let n := freeName declared c
    n :: dedup (n :: declared) rest

/-- Stable insertion into a sorted list (equal keys keep original order,
as Python's stable `sorted`). -/
def insSorted (le : α → α → Bool) (x : α) : List α → List α
  | [] => [x]
  | y :: t => if le x y then x :: y :: t else y :: insSorted le x t

/-- Stable sort by a boolean total order (models Python `sorted(..., key=...)`). -/
def sortByB (le : α → α → Bool) : List α → List α
  | [] => []
  | x :: t => insSorted le x (sortByB le t)

/-- Python string `<=`: lexicographic on code points. -/
def strLe : Str → Str → Bool
  | [], _ => true
  | _ :: _, [] => false
  | a :: s, b :: t => if a == b then strLe s t else decide (a < b)

/-- A parsed field mapping `{'obf': ..., 'named': ...}`. -/
structure FieldRec where
  obf : Str
  named : Str
  deriving DecidableEq

/-- A parsed method mapping `{'obf': ..., 'named': ..., 'signature': ...}`. -/
structure MethodRec where
  obf : Str
  named : Str
  signature : Str
  deriving DecidableEq

/-- One class entry of the `mappings` table:
`{'obf': '', 'fields': [], 'methods': []}`. -/
structure Info where
  obf : Str
  fields : List FieldRec
  methods : List MethodRec
  deriving DecidableEq

/-- The fresh entry produced by the `defaultdict` factory. -/
def Info.empty : Info := ⟨[], [], []⟩

/-- The `mappings` dict: an insertion-ordered association list. -/
abbrev Table := List (Str × Info)

/-- Python `defaultdict` access-and-modify: update the entry at `k`, creating it
(at the end, preserving insertion order) when absent. -/
def modifyEntry (t : Table) (k : Str) (g : Info → Info) : Table :=
  match t with
  | [] => [(k, g Info.empty)]
  | (k', v) :: rest => if k' = k then (k', g v) :: rest else (k', v) :: modifyEntry rest k g

/-- Model of `mappings[k]['obf'] = o`. -/
def setObf (t : Table) (k : Str) (o : Str) : Table :=
  modifyEntry t k (fun i => { i with obf := o })

/-- Model of `mappings[k]['fields'].append(f)`. -/
def addField (t : Table) (k : Str) (f : FieldRec) : Table :=
  modifyEntry t k (fun i => { i with fields := i.fields ++ [f] })

/-- Model of `mappings[k]['methods'].append(m)`. -/
def addMethod (t : Table) (k : Str) (m : MethodRec) : Table :=
  modifyEntry t k (fun i => { i with methods := i.methods ++ [m] })

/-- Dict lookup without creation. -/
def lookupInfo (t : Table) (k : Str) : Option Info :=
  match t with
  | [] => none
  | (k', v) :: rest => if k' = k then some v else lookupInfo rest k

/-- Decidable equality for `Except`, for evaluating concrete parse runs. -/
instance {ε α : Type} [DecidableEq ε] [DecidableEq α] : DecidableEq (Except ε α) := fun a b =>
  match a, b with
  | .ok x, .ok y =>
    if h : x = y then .isTrue (by rw [h]) else .isFalse (by intro he; cases he; exact h rfl)
  | .error x, .error y =>
    if h : x = y then .isTrue (by rw [h]) else .isFalse (by intro he; cases he; exact h rfl)
  | .ok _, .error _ => .isFalse (by intro he; cases he)
  | .error _, .ok _ => .isFalse (by intro he; cases he)

/-- Parser state of the line loop: the table and `current_class_name`. -/
structure PState where
  table : Table
  current : Option Str
  deriving DecidableEq

/-- Initial parser state. -/
def initState : PState := ⟨[], none⟩

/-- Sort key for the fields loop (`key=lambda x: x['named']`). -/
def fieldLe (f g : FieldRec) : Bool := strLe f.named g.named

/-- Sort key for the methods loop
(`key=lambda x: (x['named'], x['signature'])`). -/
def methodLe (m n : MethodRec) : Bool :=
  if m.named = n.named then strLe m.signature n.signature else strLe m.named n.named

namespace GM

/-- The `JAVA_KEYWORDS` set of `generate-maps.py`. -/
def JAVA_KEYWORDS : List Str :=
  [str ("abstract"), str ("continue"), str ("for"), str ("new"), str ("switch"),
   str ("assert"), str ("default"), str ("goto"), str ("package"), str ("synchronized"),
   str ("boolean"), str ("do"), str ("if"), str ("private"), str ("this"),
   str ("break"), str ("double"), str ("implements"), str ("protected"), str ("throw"),
   str ("byte"), str ("else"), str ("import"), str ("public"), str ("throws"),
   str ("case"), str ("enum"), str ("instanceof"), str ("return"), str ("transient"),
   str ("catch"), str ("extends"), str ("int"), str ("short"), str ("try"),
   str ("char"), str ("final"), str ("interface"), str ("static"), str ("void"),
   str ("class"), str ("finally"), str ("long"), str ("strictfp"), str ("volatile"),
   str ("const"), str ("float"), str ("native"), str ("super"), str ("while"),
   str ("true"), str ("false"), str ("null")]

/-- Embedding of `to_java_identifier` of `generate-maps.py`. -/
def to_java_identifier (name : Str) : Str :=
  if name ∈ JAVA_KEYWORDS then name ++ ['_']
  else
    let sanitized := name.map subChar
    let sanitized := if startsWithDigit sanitized then '_' :: sanitized else sanitized
    if sanitized = [] then ['_'] else sanitized

/-- Model of `re.sub(r'(?<=[a-z0-9])([A-Z])', r'_\1', ...)`: insert `_` before an
upper-case letter preceded by a lower-case letter or digit (worker carries
the original previous character). -/
def camel1Go (prev : Char) : Str → Str
  | [] => []
  | c :: t =>
    (if isUpperB c && (isLowerB prev || isDigitB prev) then ['_', c] else [c]) ++ camel1Go c t

/-- First camel-case boundary pass. -/
def camel1 : Str → Str
  | [] => []
  | c :: t => c :: camel1Go c t

/-- Model of `re.sub(r'(?<=[A-Z])([A-Z][a-z])', r'_\1', ...)`: insert `_` before an
upper-case letter that follows an upper-case letter and precedes a
lower-case letter. -/
def camel2Go (prev : Char) : Str → Str
  | [] => []
  | [c] => [c]
  | c :: d :: t =>
    (if isUpperB prev && isUpperB c && isLowerB d then ['_', c] else [c]) ++ camel2Go c (d :: t)

/-- Second camel-case boundary pass. -/
def camel2 : Str → Str
  | [] => []
  | c :: t => c :: camel2Go c t

/-- Embedding of `to_java_constant_name` of `generate-maps.py`. -/
def to_java_constant_name (name : Str) : Str :=
  if name = str ("<init>") then str ("INIT")
  else if name = str ("<clinit>") then str ("CLINIT")
  else
    let n1 := camel1 name
    let n2 := camel2 n1
    let n3 := n2.map subChar
    let up := n3.map Char.toUpper
    if startsWithDigit up then '_' :: up else up

/-- The per-parameter transform of `get_method_params_suffix`:
`p.strip().split('.')[-1]`, then `[] -> _ARRAY`, `< -> _`, drop `>`, then
the constant namer. -/
def paramTok (p : Str) : Str :=
  let t := lastSeg '.' (strip p)
  let t := replaceAll (str ("[]")) (str ("_ARRAY")) t
  let t := t.map (fun c => if c == '<' then '_' else c)
  let t := t.filter (fun c => !(c == '>'))
  to_java_constant_name t

/-- Embedding of `get_method_params_suffix` of `generate-maps.py`. -/
def get_method_params_suffix (signature : Str) : Str :=
  match parenGroup signature with
  | none => []
  | some g =>
    if g = [] then []
    else '_' :: List.intercalate ['_'] (((splitOnChar ',' g).map paramTok).filter (fun p => !p.isEmpty))

/-- One iteration of the parse loop of `generate-maps.py` (`main`,
reading one raw line). -/
def parseLine (st : PState) (line : Str) : Except Unit PState :=
  let stripped := strip line
  if stripped = [] ∨ beginsWith (str ("#")) stripped then .ok st
  else if endsWith [':'] stripped then
    match splitAll (str (" -> ")) (rstripCol stripped) with
    | [p1, p2] => .ok ⟨setObf st.table p1 p2, some p1⟩
    | _ => .ok st
  else
    match st.current with
    | some cls =>
      if beginsWith (str ("    ")) line ∧ hasSub (str (" -> ")) line then
        match splitFirst (str (" -> ")) stripped with
        | none => .error ()
        | some q =>
          let definitionPart := strip q.1
          if hasSub ['('] definitionPart then
            match reSearch definitionPart with
            | some tok =>
              .ok ⟨addMethod st.table cls ⟨q.2, lastSeg '.' tok, stripLineRange definitionPart⟩,
                   st.current⟩
            | none => .ok st
          else .ok ⟨addField st.table cls ⟨q.2, lastTok definitionPart⟩, st.current⟩
      else .ok st
    | none => .ok st

/-- The whole parse pass of `generate-maps.py` over the input lines. -/
def parse (lines : List Str) : Except Unit PState :=
  lines.foldlM parseLine initState

/-- The fields emission loop of `generate-maps.py`: ordered
`(const_name, obfuscated)` pairs, skipping an empty base name. -/
def fieldLoop (declared : List Str) : List FieldRec → List (Str × Str)
  | [] => []
  | f :: rest =>
    let base := to_java_constant_name f.named
    if base = [] then fieldLoop declared rest
    else
      let n := freeName declared base
      (n, f.obf) :: fieldLoop (n :: declared) rest

/-- The methods emission loop of `generate-maps.py`. -/
def methodLoop (declared : List Str) : List MethodRec → List (Str × Str)
  | [] => []
  | m :: rest =>
    let base := to_java_constant_name m.named
    if base = [] then methodLoop declared rest
    else
      let full := base ++ get_method_params_suffix m.signature
      let n := freeName declared full
      (n, m.obf) :: methodLoop (n :: declared) rest

/-- Per class: the emitted field constants in order. -/
def fieldPairs (info : Info) : List (Str × Str) :=
  fieldLoop [] (sortByB fieldLe info.fields)

/-- Per class: the emitted method constants in order. -/
def methodPairs (info : Info) : List (Str × Str) :=
  methodLoop [] (sortByB methodLe info.methods)

end GM

namespace GMF

/-- Embedding of `to_java_constant_name` of `generate-maps-full.py` (character-identical
to the plain script's version). -/
def to_java_constant_name (name : Str) : Str :=
  if name = str ("<init>") then str ("INIT")
  else if name = str ("<clinit>") then str ("CLINIT")
  else
    let n1 := GM.camel1 name
    let n2 := GM.camel2 n1
    let n3 := n2.map subChar
    let up := n3.map Char.toUpper
    if startsWithDigit up then '_' :: up else up

/-- The per-parameter transform of `get_method_params_suffix` in
`generate-maps-full.py`. -/
def paramTok (p : Str) : Str :=
  let t := lastSeg '.' (strip p)
  let t := replaceAll (str ("[]")) (str ("_ARRAY")) t
  let t := t.map (fun c => if c == '<' then '_' else c)
  let t := t.filter (fun c => !(c == '>'))
  to_java_constant_name t

/-- Embedding of `get_method_params_suffix` of `generate-maps-full.py`. -/
def get_method_params_suffix (signature : Str) : Str :=
  match parenGroup signature with
  | none => []
  | some g =>
    if g = [] then []
    else '_' :: List.intercalate ['_'] (((splitOnChar ',' g).map paramTok).filter (fun p => !p.isEmpty))

/-- One iteration of the parse loop of `generate-maps-full.py` (`main`,
reading one raw line; the loop body is character-identical to the plain
script's). -/
def parseLine (st : PState) (line : Str) : Except Unit PState :=
  let stripped := strip line
  if stripped = [] ∨ beginsWith (str ("#")) stripped then .ok st
  else if endsWith [':'] stripped then
    match splitAll (str (" -> ")) (rstripCol stripped) with
    | [p1, p2] => .ok ⟨setObf st.table p1 p2, some p1⟩
    | _ => .ok st
  else
    match st.current with
    | some cls =>
      if beginsWith (str ("    ")) line ∧ hasSub (str (" -> ")) line then
        match splitFirst (str (" -> ")) stripped with
        | none => .error ()
        | some q =>
          let definitionPart := strip q.1
          if hasSub ['('] definitionPart then
            match reSearch definitionPart with
            | some tok =>
              .ok ⟨addMethod st.table cls ⟨q.2, lastSeg '.' tok, stripLineRange definitionPart⟩,
                   st.current⟩
            | none => .ok st
          else .ok ⟨addField st.table cls ⟨q.2, lastTok definitionPart⟩, st.current⟩
      else .ok st
    | none => .ok st

/-- The whole parse pass of `generate-maps-full.py`. -/
def parse (lines : List Str) : Except Unit PState :=
  lines.foldlM parseLine initState

/-- The fields emission loop of `generate-maps-full.py`: it builds the
`declarations` list (bare constant names) and the `assignments` list
(modelled by `(const_name, obfuscated)` pairs, the data content of the
static-initializer assignment lines). -/
def fieldLoop (declared : List Str) : List FieldRec → (List Str × List (Str × Str))
  | [] => ([], [])
  | f :: rest =>
    let base := to_java_constant_name f.named
    if base = [] then fieldLoop declared rest
    else
      let n := freeName declared base
      let r := fieldLoop (n :: declared) rest
      (n :: r.1, (n, f.obf) :: r.2)

/-- The methods emission loop of `generate-maps-full.py`
(declarations and static-initializer assignments). -/
def methodLoop (declared : List Str) : List MethodRec → (List Str × List (Str × Str))
  | [] => ([], [])
  | m :: rest =>
    let base := to_java_constant_name m.named
    if base = [] then methodLoop declared rest
    else
      let full := base ++ get_method_params_suffix m.signature
      let n := freeName declared full
      let r := methodLoop (n :: declared) rest
      (n :: r.1, (n, m.obf) :: r.2)

/-- Per class: declarations and assignments for fields. -/
def fieldGen (info : Info) : List Str × List (Str × Str) :=
  fieldLoop [] (sortByB fieldLe info.fields)

/-- Per class: declarations and assignments for methods. -/
def methodGen (info : Info) : List Str × List (Str × Str) :=
  methodLoop [] (sortByB methodLe info.methods)

end GMF

/-- Modelled from the spec (section 4.4 and claim C3 wording), for
comparison with the source's `get_method_params_suffix`: scan from the
first `(` to its matching `)` at paren depth zero. -/
def takeToMatch : Nat → Str → Option Str
  | _, [] => none
  | d, c :: t =>
    if c = ')' then
      if d = 0 then some [] else (takeToMatch (d - 1) t).map (fun r => c :: r)
    else if c = '(' then (takeToMatch (d + 1) t).map (fun r => c :: r)
    else (takeToMatch d t).map (fun r => c :: r)

/-- Modelled from the spec (claim C3 wording): split on commas that are at
generic-angle-bracket depth zero only. -/
def splitTopGo : Nat → Str → Str → List Str
  | _, acc, [] => [acc.reverse]
  | dep, acc, c :: t =>
    if c = ',' ∧ dep = 0 then acc.reverse :: splitTopGo 0 [] t
    else
      splitTopGo (if c = '<' then dep + 1 else if c = '>' then dep - 1 else dep) (c :: acc) t

/-- Top-level comma split (spec wording). -/
def splitTopComma (s : Str) : List Str := splitTopGo 0 [] s

/-- Modelled from the spec: the Signature Suffix Generator as the spec and
claim C3 describe it -- the parameter substring between the first `(` and
its matching `)`, split only on top-level commas (a comma nested inside
generic angle brackets does not separate parameters), each parameter
contributing its last dot-separated simple type name through the same
per-parameter cleanup as the source. -/
def suffixAsSpecified (signature : Str) : Str :=
  match splitFirst ['('] signature with
  | none => []
  | some q =>
    match takeToMatch 0 q.2 with
    | none => []
    | some g =>
      if g = [] then []
      else
        '_' :: List.intercalate ['_']
          (((splitTopComma g).map GM.paramTok).filter (fun p => !p.isEmpty))

/-- The shape of a line that reaches the member-line branch of the parse
loop: non-blank, not a comment, not a class header, four-space indented,
and containing the ` -> ` separator. -/
def memberShape (line : Str) : Prop :=
  strip line ≠ [] ∧ ¬ beginsWith (str ("#")) (strip line) ∧
    ¬ endsWith [':'] (strip line) ∧ beginsWith (str ("    ")) line ∧
    hasSub (str (" -> ")) line

instance (line : Str) : Decidable (memberShape line) := by
  unfold memberShape; infer_instance

/-! ### Auxiliary facts about the counter-suffix search -/

/-- Value of a little-endian digit list. -/
def ofDigitsLE : List Nat → Nat
  | [] => 0
  | d :: t => d + 10 * ofDigitsLE t

theorem digitsRevGo_spec : ∀ fuel n, n ≤ fuel → ofDigitsLE (digitsRevGo fuel n) = n := by
  intro fuel
  induction fuel with
  | zero => intro n h; interval_cases n; simp [digitsRevGo, ofDigitsLE]
  | succ fuel ih =>
    intro n h
    match n with
    | 0 => simp [digitsRevGo, ofDigitsLE]
    | n + 1 =>
      have hdiv : (n + 1) / 10 ≤ fuel := by
        have := Nat.div_lt_self (Nat.succ_pos n) (by omega : 1 < 10)
        omega
      simp only [digitsRevGo, ofDigitsLE, ih _ hdiv]
      omega

theorem digitsRevGo_lt10 : ∀ fuel n d, d ∈ digitsRevGo fuel n → d < 10 := by
  intro fuel
  induction fuel with
  | zero => intro n d h; cases n <;> simp [digitsRevGo] at h
  | succ fuel ih =>
    intro n d h
    match n with
    | 0 => simp [digitsRevGo] at h
    | n + 1 =>
      simp only [digitsRevGo, List.mem_cons] at h
      rcases h with h | h
      · subst h; exact Nat.mod_lt _ (by omega)
      · exact ih _ _ h

theorem charDigit_inv : ∀ d, d < 10 → (Char.ofNat (48 + d)).toNat - 48 = d := by
  intro d h
  interval_cases d <;> decide

theorem map_digitChar_cancel :
    ∀ l : List Nat, (∀ d ∈ l, d < 10) →
      (l.map (fun d => Char.ofNat (48 + d))).map (fun c => c.toNat - 48) = l := by
  intro l
  induction l with
  | nil => intro _; simp
  | cons d t ih =>
    intro h
    simp only [List.map_cons, List.cons.injEq]
    exact ⟨charDigit_inv d (h d (List.mem_cons_self d t)),
      ih (fun e he => h e (List.mem_cons_of_mem d he))⟩

theorem natStr_inj : ∀ m n, natStr m = natStr n → m = n := by
  intro m n h
  unfold natStr at h
  have h2 : (digitsRevGo m m).map (fun d => Char.ofNat (48 + d)) =
      (digitsRevGo n n).map (fun d => Char.ofNat (48 + d)) := by
    have := congrArg List.reverse h
    simpa [← List.map_reverse] using this
  have h3 : digitsRevGo m m = digitsRevGo n n := by
    have hm := map_digitChar_cancel (digitsRevGo m m) (fun d hd => digitsRevGo_lt10 _ _ _ hd)
    have hn := map_digitChar_cancel (digitsRevGo n n) (fun d hd => digitsRevGo_lt10 _ _ _ hd)
    rw [← hm, ← hn, h2]
  have := congrArg ofDigitsLE h3
  rwa [digitsRevGo_spec m m le_rfl, digitsRevGo_spec n n le_rfl] at this

theorem appLeftCancel : ∀ (a x y : Str), a ++ x = a ++ y → x = y := by
  intro a
  induction a with
  | nil => intro x y h; simpa using h
  | cons c t ih => intro x y h; exact ih x y (by simpa using h)

theorem suffixed_inj (b : Str) : ∀ i j, suffixed b i = suffixed b j → i = j := by
  intro i j h
  unfold suffixed at h
  have := appLeftCancel b _ _ h
  exact natStr_inj i j (by simpa using this)

theorem freeCandidate (d : List Str) (b : Str) :
    ∃ k, k < d.length + 1 ∧ suffixed b (2 + k) ∉ d := by
  by_contra hall
  push_neg at hall
  have hmem : ∀ k, k < d.length + 1 → suffixed b (2 + k) ∈ d := hall
  set cs := (List.range (d.length + 1)).map (fun k => suffixed b (2 + k)) with hcs
  have hinj : Function.Injective (fun k => suffixed b (2 + k)) := by
    intro i j hij
    have := suffixed_inj b (2 + i) (2 + j) hij
    omega
  have hnd : cs.Nodup := (List.nodup_range _).map hinj
  have hsub : cs ⊆ d := by
    intro x hx
    rw [hcs, List.mem_map] at hx
    obtain ⟨k, hk, rfl⟩ := hx
    exact hmem k (List.mem_range.mp hk)
  have hlen : cs.length ≤ d.length := (hnd.subperm hsub).length_le
  rw [hcs] at hlen
  simp at hlen

theorem probe_spec :
    ∀ (fuel c : Nat) (d : List Str) (b : Str),
      (∃ k, k < fuel ∧ suffixed b (c + k) ∉ d) →
      ∃ k, k < fuel ∧ probe d b c fuel = suffixed b (c + k) ∧ suffixed b (c + k) ∉ d ∧
        ∀ j, j < k → suffixed b (c + j) ∈ d := by
  intro fuel
  induction fuel with
  | zero => intro c d b h; obtain ⟨k, hk, _⟩ := h; omega
  | succ fuel ih =>
    intro c d b h
    by_cases hc : suffixed b c ∈ d
    · have hex : ∃ k, k < fuel ∧ suffixed b (c + 1 + k) ∉ d := by
        obtain ⟨k, hk, hnot⟩ := h
        match k with
        | 0 => exact absurd hc (by simpa using hnot)
        | k + 1 =>
          exact ⟨k, by omega, by simpa [show c + 1 + k = c + (k + 1) from by omega] using hnot⟩
      obtain ⟨k, hk, heq, hnot, hmin⟩ := ih (c + 1) d b hex
      refine ⟨k + 1, by omega, ?_, ?_, ?_⟩
      · simpa [probe, hc, show c + 1 + k = c + (k + 1) by omega] using heq
      · have : c + (k + 1) = c + 1 + k := by omega
        rw [this]; exact hnot
      · intro j hj
        match j with
        | 0 => simpa using hc
        | j + 1 =>
          have : c + (j + 1) = c + 1 + j := by omega
          rw [this]; exact hmin j (by omega)
    · exact ⟨0, by omega, by simp [probe, hc], by simpa using hc, by omega⟩

theorem freeName_eq_of_not_mem (d : List Str) (b : Str) (h : b ∉ d) : freeName d b = b := by
  simp [freeName, h]

theorem freeName_mem_spec (d : List Str) (b : Str) (h : b ∈ d) :
    ∃ k, 2 ≤ k ∧ freeName d b = suffixed b k ∧ suffixed b k ∉ d ∧
      ∀ j, 2 ≤ j → j < k → suffixed b j ∈ d := by
  obtain ⟨k0, hk0, hnot0⟩ := freeCandidate d b
  obtain ⟨k, _, heq, hnot, hmin⟩ :=
    probe_spec (d.length + 1) 2 d b ⟨k0, hk0, hnot0⟩
  refine ⟨2 + k, by omega, ?_, hnot, ?_⟩
  · simpa [freeName, h] using heq
  · intro j h2 hjk
    have := hmin (j - 2) (by omega)
    simpa [show 2 + (j - 2) = j by omega] using this

theorem freeName_not_mem (d : List Str) (b : Str) : freeName d b ∉ d := by
  by_cases h : b ∈ d
  · obtain ⟨k, _, heq, hnot, _⟩ := freeName_mem_spec d b h
    rw [heq]; exact hnot
  · rw [freeName_eq_of_not_mem d b h]; exact h

theorem dedup_length : ∀ (l d : List Str), (dedup d l).length = l.length := by
  intro l
  induction l with
  | nil => intro d; simp [dedup]
  | cons c rest ih => intro d; simp [dedup, ih]

theorem mem_dedup_not_mem : ∀ (l d : List Str) (x : Str), x ∈ dedup d l → x ∉ d := by
  intro l
  induction l with
  | nil => intro d x h; simp [dedup] at h
  | cons c rest ih =>
    intro d x h
    simp only [dedup, List.mem_cons] at h
    rcases h with h | h
    · subst h; exact freeName_not_mem d c
    · intro hd
      exact ih (freeName d c :: d) x h (List.mem_cons_of_mem _ hd)

theorem dedup_nodup : ∀ (l d : List Str), (dedup d l).Nodup := by
  intro l
  induction l with
  | nil => intro d; simp [dedup]
  | cons c rest ih =>
    intro d
    simp only [dedup, List.nodup_cons]
    refine ⟨?_, ih _⟩
    intro hmem
    exact mem_dedup_not_mem rest (freeName d c :: d) _ hmem (List.mem_cons_self _ _)

theorem dedup_get_eq :
    ∀ (l d : List Str) (i : Nat) (h : i < l.length) (h2 : i < (dedup d l).length),
      ∃ u : List Str,
        (∀ x, x ∈ u ↔ (x ∈ (dedup d l).take i ∨ x ∈ d)) ∧
        (dedup d l).get ⟨i, h2⟩ = freeName u (l.get ⟨i, h⟩) := by
  intro l
  induction l with
  | nil => intro d i h; simp at h
  | cons c rest ih =>
    intro d i h h2
    match i with
    | 0 => exact ⟨d, by simp, by simp [dedup]⟩
    | i + 1 =>
      have hr : i < rest.length := by simpa using h
      have hr2 : i < (dedup (freeName d c :: d) rest).length := by
        simpa [dedup] using h2
      obtain ⟨u, hu, heq⟩ := ih (freeName d c :: d) i hr hr2
      refine ⟨u, ?_, ?_⟩
      · intro x
        rw [hu x]
        simp only [dedup, List.take_succ_cons, List.mem_cons]
        tauto
      · simpa [dedup] using heq

/-! ### Characterizations of the splitting helpers -/

theorem beginsWith_iff : ∀ (p s : Str), beginsWith p s = true ↔ ∃ r, s = p ++ r := by
  intro p
  induction p with
  | nil => intro s; simp [beginsWith]
  | cons a ps ih =>
    intro s
    match s with
    | [] => simp [beginsWith]
    | c :: cs =>
      simp only [beginsWith, Bool.and_eq_true, beq_iff_eq, ih cs]
      constructor
      · rintro ⟨rfl, r, rfl⟩; exact ⟨r, rfl⟩
      · rintro ⟨r, hr⟩
        rw [List.cons_append] at hr
        cases hr
        exact ⟨rfl, r, rfl⟩

theorem splitFirst_eq :
    ∀ (s p a b : Str), splitFirst p s = some (a, b) →
      s = a ++ p ++ b ∧ ∀ a' b' : Str, s = a' ++ p ++ b' → a.length ≤ a'.length := by
  intro s
  induction s with
  | nil =>
    intro p a b h
    simp only [splitFirst] at h
    by_cases hb : beginsWith p [] = true
    · rw [if_pos hb] at h
      cases h
      rw [beginsWith_iff] at hb
      obtain ⟨r, hr⟩ := hb
      have hp : p = [] := by
        cases p with
        | nil => rfl
        | cons x xs => simp at hr
      subst hp
      exact ⟨by simp, fun a' b' _ => by simp⟩
    · rw [if_neg hb] at h; cases h
  | cons c t ih =>
    intro p a b h
    simp only [splitFirst] at h
    by_cases hb : beginsWith p (c :: t) = true
    · rw [if_pos hb] at h
      cases h
      rw [beginsWith_iff] at hb
      obtain ⟨r, hr⟩ := hb
      constructor
      · rw [hr]; simp [List.drop_left]
      · intro a' b' _; simp
    · rw [if_neg hb] at h
      match hsp : splitFirst p t with
      | none => rw [hsp] at h; simp at h
      | some q =>
        rw [hsp] at h
        have h2 : (c :: q.1, q.2) = (a, b) := Option.some.inj h
        cases h2
        obtain ⟨heq, hmin⟩ := ih p q.1 q.2 hsp
        constructor
        · rw [heq]; rfl
        · intro a' b' hs
          match a' with
          | [] =>
            exfalso
            apply hb
            rw [beginsWith_iff]
            exact ⟨b', by simpa using hs⟩
          | c' :: a'' =>
            simp only [List.cons_append, List.cons.injEq] at hs
            have := hmin a'' b' hs.2
            simp only [List.length_cons]
            omega

theorem splitOnChar_ne_nil : ∀ (sep : Char) (s : Str), splitOnChar sep s ≠ [] := by
  intro sep s
  match s with
  | [] => simp [splitOnChar]
  | c :: t =>
    simp only [splitOnChar]
    match splitOnChar sep t with
    | [] => simp
    | h :: r => by_cases hc : c == sep <;> simp [hc]

theorem splitOnChar_not_mem : ∀ (sep : Char) (g : Str), sep ∉ g → splitOnChar sep g = [g] := by
  intro sep g
  induction g with
  | nil => intro _; rfl
  | cons c t ih =>
    intro h
    have hc : (c == sep) = false := by
      simp only [beq_eq_false_iff_ne, ne_eq]
      intro hcc
      exact h (by rw [hcc]; exact List.mem_cons_self _ _)
    have ht := ih (fun hm => h (List.mem_cons_of_mem _ hm))
    simp only [splitOnChar, ht, hc]
    simp

theorem splitOnChar_cons_ne (sep c : Char) (t : Str) (hc : (c == sep) = false)
    (x : Str) (r : List Str) (h : splitOnChar sep t = x :: r) :
    splitOnChar sep (c :: t) = (c :: x) :: r := by
  simp only [splitOnChar, h, hc]
  simp

theorem splitOnChar_append :
    ∀ (sep : Char) (g1 g2 : Str), sep ∉ g1 →
      splitOnChar sep (g1 ++ sep :: g2) = g1 :: splitOnChar sep g2 := by
  intro sep g1
  induction g1 with
  | nil =>
    intro g2 _
    simp only [List.nil_append, splitOnChar]
    match h : splitOnChar sep g2 with
    | [] => exact absurd h (splitOnChar_ne_nil sep g2)
    | x :: r => simp
  | cons c t ih =>
    intro g2 h
    have hc : (c == sep) = false := by
      simp only [beq_eq_false_iff_ne, ne_eq]
      intro hcc
      exact h (by rw [hcc]; exact List.mem_cons_self _ _)
    have ht := ih g2 (fun hm => h (List.mem_cons_of_mem _ hm))
    match hx : splitOnChar sep g2 with
    | [] => exact absurd hx (splitOnChar_ne_nil sep g2)
    | x :: r =>
      rw [hx] at ht
      rw [List.cons_append]
      exact splitOnChar_cons_ne sep c (t ++ sep :: g2) hc t (x :: r) ht

theorem parenGroup_simple : ∀ mid : Str, parenGroup ('(' :: (mid ++ [')'])) = some mid := by
  intro mid
  have h1 : splitFirst ['('] ('(' :: (mid ++ [')'])) = some ([], mid ++ [')']) := by
    simp [splitFirst, beginsWith]
  have h2 : lastSplit ')' (mid ++ [')']) = some (mid, []) := by
    have hrev : (mid ++ [')']).reverse = ')' :: mid.reverse := by simp
    have h3 : splitFirst [')'] (')' :: mid.reverse) = some ([], mid.reverse) := by
      simp [splitFirst, beginsWith]
    simp [lastSplit, hrev, h3]
  simp [parenGroup, h1, h2]

/-! ### The two scripts share one core -/

theorem gmf_constant_name_eq : GMF.to_java_constant_name = GM.to_java_constant_name := rfl

theorem gmf_suffix_eq : GMF.get_method_params_suffix = GM.get_method_params_suffix := rfl

theorem fieldLoop_agree :
    ∀ (l : List FieldRec) (d : List Str),
      (GMF.fieldLoop d l).2 = GM.fieldLoop d l ∧
      (GMF.fieldLoop d l).1 = (GM.fieldLoop d l).map Prod.fst := by
  intro l
  induction l with
  | nil => intro d; simp [GM.fieldLoop, GMF.fieldLoop]
  | cons f rest ih =>
    intro d
    by_cases hb : GM.to_java_constant_name f.named = []
    · simpa [GM.fieldLoop, GMF.fieldLoop, gmf_constant_name_eq, hb] using ih d
    · have ihd := ih (freeName d (GM.to_java_constant_name f.named) :: d)
      simp [GM.fieldLoop, GMF.fieldLoop, gmf_constant_name_eq, hb, ihd.1, ihd.2]

theorem methodLoop_agree :
    ∀ (l : List MethodRec) (d : List Str),
      (GMF.methodLoop d l).2 = GM.methodLoop d l ∧
      (GMF.methodLoop d l).1 = (GM.methodLoop d l).map Prod.fst := by
  intro l
  induction l with
  | nil => intro d; simp [GM.methodLoop, GMF.methodLoop]
  | cons m rest ih =>
    intro d
    by_cases hb : GM.to_java_constant_name m.named = []
    · simpa [GM.methodLoop, GMF.methodLoop, gmf_constant_name_eq, gmf_suffix_eq, hb] using ih d
    · have ihd := ih (freeName d (GM.to_java_constant_name m.named ++
        GM.get_method_params_suffix m.signature) :: d)
      simp [GM.methodLoop, GMF.methodLoop, gmf_constant_name_eq, gmf_suffix_eq, hb,
        ihd.1, ihd.2]

/-! ### Lengths of the emission loops -/

theorem fieldLoop_length :
    ∀ (l : List FieldRec) (d : List Str),
      (GM.fieldLoop d l).length =
        l.countP (fun f => decide (GM.to_java_constant_name f.named ≠ [])) := by
  intro l
  induction l with
  | nil => intro d; simp [GM.fieldLoop]
  | cons f rest ih =>
    intro d
    by_cases hb : GM.to_java_constant_name f.named = []
    · simp [GM.fieldLoop, hb, List.countP_cons, ih d]
    · simp [GM.fieldLoop, hb, List.countP_cons, ih]

theorem methodLoop_length :
    ∀ (l : List MethodRec) (d : List Str),
      (GM.methodLoop d l).length =
        l.countP (fun m => decide (GM.to_java_constant_name m.named ≠ [])) := by
  intro l
  induction l with
  | nil => intro d; simp [GM.methodLoop]
  | cons m rest ih =>
    intro d
    by_cases hb : GM.to_java_constant_name m.named = []
    · simp [GM.methodLoop, hb, List.countP_cons, ih d]
    · simp [GM.methodLoop, hb, List.countP_cons, ih]

theorem insSorted_length (le : α → α → Bool) (x : α) :
    ∀ l : List α, (insSorted le x l).length = l.length + 1 := by
  intro l
  induction l with
  | nil => simp [insSorted]
  | cons y t ih =>
    by_cases h : le x y
    · simp [insSorted, h]
    · simp [insSorted, h, ih]

theorem sortByB_length (le : α → α → Bool) :
    ∀ l : List α, (sortByB le l).length = l.length := by
  intro l
  induction l with
  | nil => simp [sortByB]
  | cons x t ih => simp [sortByB, insSorted_length, ih]

/-! ### Facts about the identifier sanitizer -/

theorem kw_nonempty_nodigit : ∀ k ∈ GM.JAVA_KEYWORDS, k ≠ [] ∧ startsWithDigit k = false := by
  decide

theorem kw_chars : ∀ k ∈ GM.JAVA_KEYWORDS, ∀ c ∈ k, allowedChar c = true ∧ c ≠ '_' := by
  decide

theorem kw_underscore_not_kw : ∀ k ∈ GM.JAVA_KEYWORDS, k ++ ['_'] ∉ GM.JAVA_KEYWORDS := by
  decide

theorem underscore_not_kw : (['_'] : Str) ∉ GM.JAVA_KEYWORDS := by decide

theorem subChar_allowed (c : Char) : allowedChar (subChar c) = true := by
  by_cases h : allowedChar c = true
  · simp [subChar, h]
  · simp only [subChar, h]
    simp
    decide

theorem mapsub_allowed (name : Str) : ∀ c ∈ name.map subChar, allowedChar c = true := by
  intro c hc
  rw [List.mem_map] at hc
  obtain ⟨d, _, rfl⟩ := hc
  exact subChar_allowed d

theorem mapsub_self (name : Str) (h : '_' ∉ name.map subChar) : name.map subChar = name := by
  induction name with
  | nil => rfl
  | cons c t ih =>
    simp only [List.map_cons, List.mem_cons, not_or] at h
    have h1 : subChar c = c := by
      by_cases ha : allowedChar c = true
      · simp [subChar, ha]
      · exact absurd (by simp [subChar, ha] : subChar c = '_') (fun he => h.1 he.symm)
    simp only [List.map_cons, h1, List.cons.injEq]
    exact ⟨trivial, ih h.2⟩

/-! ### Claim theorems -/

/-- C1: the claim says the parse loop is total and never raises on a
malformed line.  The code violates this: a four-space-indented line whose
only ` -> ` is followed by whitespace passes the raw-line membership test
`" -> " in line` but loses the separator under `strip`, so the two-name
unpacking of `stripped_line.split(" -> ", 1)` raises `ValueError`.  In the
embedding the run aborts with `Except.error`. -/
theorem c1_member_split_crash :
    GM.parse [str ("a.b.C -> x:"), str ("    int f -> ")] = .error () := by decide

/-- C2 counterexample: on a member line containing ` -> ` twice the parser
splits at the FIRST occurrence, not the last: with definition text
`int a` and trailing text `b -> c`, the stored obfuscated name is
`b -> c` (everything after the first ` -> `), not `c` as the claim's
last-occurrence split demands. -/
theorem c2_counterexample :
    GM.parse [str ("a.b.C -> x:"), str ("    int a -> b -> c")] =
      .ok ⟨[(str ("a.b.C"), ⟨str ("x"), [⟨str ("b -> c"), str ("a")⟩], []⟩)],
           some (str ("a.b.C"))⟩ ∧
    str ("b -> c") ≠ str ("c") := by decide

/-- C2 (amended): for every member line the parser splits the stripped
line at the FIRST occurrence of ` -> `: the stored obfuscated member name
is exactly the text following the first ` -> ` and the definition part is
everything before it (`a` below is the shortest prefix admitting the
decomposition, which characterizes the first occurrence). -/
theorem c2_first_split (st : PState) (cls line a b : Str)
    (hcur : st.current = some cls)
    (h1 : strip line ≠ [])
    (h2 : ¬ beginsWith (str ("#")) (strip line) = true)
    (h3 : ¬ endsWith [':'] (strip line) = true)
    (h4 : beginsWith (str ("    ")) line = true)
    (h5 : hasSub (str (" -> ")) line = true)
    (h6 : splitFirst (str (" -> ")) (strip line) = some (a, b)) :
    (strip line = a ++ str (" -> ") ++ b ∧
      ∀ x y : Str, strip line = x ++ str (" -> ") ++ y → a.length ≤ x.length) ∧
    GM.parseLine st line =
      (if hasSub ['('] (strip a) = true then
        match reSearch (strip a) with
        | some tok =>
          .ok ⟨addMethod st.table cls ⟨b, lastSeg '.' tok, stripLineRange (strip a)⟩, some cls⟩
        | none => .ok st
      else .ok ⟨addField st.table cls ⟨b, lastTok (strip a)⟩, some cls⟩) := by
  refine ⟨splitFirst_eq _ _ _ _ h6, ?_⟩
  simp only [GM.parseLine, hcur]
  rw [if_neg (not_or.mpr ⟨h1, h2⟩), if_neg h3, if_pos (And.intro h4 h5), h6]

/-- C2 witness: the amended theorem evaluated on the double-separator
line. -/
theorem c2_witness :
    GM.parseLine ⟨[], some (str ("a.b.C"))⟩ (str ("    int a -> b -> c")) =
      .ok ⟨[(str ("a.b.C"), ⟨[], [⟨str ("b -> c"), str ("a")⟩], []⟩)], some (str ("a.b.C"))⟩ := by
  have h := (c2_first_split ⟨[], some (str ("a.b.C"))⟩ (str ("a.b.C"))
    (str ("    int a -> b -> c")) (str ("int a")) (str ("b -> c"))
    rfl (by decide) (by decide) (by decide) (by decide) (by decide) (by decide)).2
  rw [h]; decide

/-- C7: the constant namer maps the lifecycle markers to `INIT`/`CLINIT`
and inserts the two camel-case boundary underscores before upper-casing:
`getFooBar -> GET_FOO_BAR` and `HTTPServer -> HTTP_SERVER`. -/
theorem c7_constant_name_examples :
    GM.to_java_constant_name (str ("<init>")) = str ("INIT") ∧
    GM.to_java_constant_name (str ("<clinit>")) = str ("CLINIT") ∧
    GM.to_java_constant_name (str ("getFooBar")) = str ("GET_FOO_BAR") ∧
    GM.to_java_constant_name (str ("HTTPServer")) = str ("HTTP_SERVER") := by decide

/-- C8: end-to-end on the four-line example the pipeline yields exactly
one class record for `a.b.Foo` (obfuscated `x`) with field constant
`BAR = "y"` and method constants `BAZ = "z"`, `BAZ_INT = "z2"`; and the
two-line round-trip yields the singleton table for `a.b.C` with
obfuscated name `x` and single field `{obf: g, named: f}`. -/
theorem c8_end_to_end :
    GM.parse [str ("a.b.Foo -> x:"), str ("    int bar -> y"),
      str ("    void baz() -> z"), str ("    void baz(int) -> z2")] =
      .ok ⟨[(str ("a.b.Foo"), ⟨str ("x"), [⟨str ("y"), str ("bar")⟩],
        [⟨str ("z"), str ("baz"), str ("void baz()")⟩,
         ⟨str ("z2"), str ("baz"), str ("void baz(int)")⟩]⟩)], some (str ("a.b.Foo"))⟩ ∧
    GM.fieldPairs ⟨str ("x"), [⟨str ("y"), str ("bar")⟩],
        [⟨str ("z"), str ("baz"), str ("void baz()")⟩,
         ⟨str ("z2"), str ("baz"), str ("void baz(int)")⟩]⟩ =
      [(str ("BAR"), str ("y"))] ∧
    GM.methodPairs ⟨str ("x"), [⟨str ("y"), str ("bar")⟩],
        [⟨str ("z"), str ("baz"), str ("void baz()")⟩,
         ⟨str ("z2"), str ("baz"), str ("void baz(int)")⟩]⟩ =
      [(str ("BAZ"), str ("z")), (str ("BAZ_INT"), str ("z2"))] ∧
    GM.parse [str ("a.b.C -> x:"), str ("    int f -> g")] =
      .ok ⟨[(str ("a.b.C"), ⟨str ("x"), [⟨str ("g"), str ("f")⟩], []⟩)],
           some (str ("a.b.C"))⟩ := by decide

/-- C3 counterexample: the source splits the parameter list on EVERY
comma, including one nested inside generic angle brackets.  On
`(Map<a.B,c.D>)` the source yields `_B_D` (two parameters `Map<a.B` and
`c.D>`), while the split the claim describes (top-level commas only, one
parameter `Map<a.B,c.D>` contributing its last dot-segment) yields `_D`. -/
theorem c3_counterexample :
    GM.get_method_params_suffix (str ("(Map<a.B,c.D>)")) = str ("_B_D") ∧
    suffixAsSpecified (str ("(Map<a.B,c.D>)")) = str ("_D") ∧
    str ("_B_D") ≠ str ("_D") := by decide

/-- C3 (amended): `suffix("()V") = ""`, and the parameter substring (taken
from the first `(` to the last `)`) is split on every comma -- a comma
nested inside generic angle brackets also separates parameters.  Stated
for an arbitrary two-parameter split: whenever neither side contains a
further comma, each side becomes its own parameter token. -/
theorem c3_split_every_comma (g1 g2 : Str) (h1 : ',' ∉ g1) (h2 : ',' ∉ g2) :
    GM.get_method_params_suffix (str ("()V")) = [] ∧
    GM.get_method_params_suffix ('(' :: ((g1 ++ ',' :: g2) ++ [')'])) =
      '_' :: List.intercalate ['_']
        (([GM.paramTok g1, GM.paramTok g2]).filter (fun p => !p.isEmpty)) := by
  refine ⟨by decide, ?_⟩
  have hpg := parenGroup_simple (g1 ++ ',' :: g2)
  simp only [GM.get_method_params_suffix, hpg]
  have hne : g1 ++ ',' :: g2 ≠ [] := by simp
  rw [if_neg hne, splitOnChar_append ',' g1 g2 h1, splitOnChar_not_mem ',' g2 h2]
  rfl

/-- C3 witness: the amended theorem evaluated at the generic-bracket
example. -/
theorem c3_witness :
    GM.get_method_params_suffix ('(' :: ((str ("Map<a.B") ++ ',' :: str ("c.D>")) ++ [')'])) =
      '_' :: List.intercalate ['_']
        (([GM.paramTok (str ("Map<a.B")), GM.paramTok (str ("c.D>"))]).filter
          (fun p => !p.isEmpty)) :=
  (c3_split_every_comma (str ("Map<a.B")) (str ("c.D>")) (by decide) (by decide)).2

/-- C4: the identifier sanitizer is total, always returns a non-empty
string over `[A-Za-z0-9_]` that does not start with a digit and is never
exactly a reserved keyword; on a keyword it returns the keyword with `_`
appended. -/
theorem c4_sanitize (name : Str) :
    (GM.to_java_identifier name ≠ [] ∧
     (∀ c ∈ GM.to_java_identifier name, allowedChar c = true) ∧
     startsWithDigit (GM.to_java_identifier name) = false ∧
     GM.to_java_identifier name ∉ GM.JAVA_KEYWORDS) ∧
    (name ∈ GM.JAVA_KEYWORDS → GM.to_java_identifier name = name ++ ['_']) := by
  constructor
  · by_cases hk : name ∈ GM.JAVA_KEYWORDS
    · have hres : GM.to_java_identifier name = name ++ ['_'] := by
        simp [GM.to_java_identifier, hk]
      obtain ⟨hne, hnd⟩ := kw_nonempty_nodigit name hk
      refine ⟨by simp [hres], ?_, ?_, ?_⟩
      · intro c hc
        rw [hres, List.mem_append] at hc
        rcases hc with hc | hc
        · exact (kw_chars name hk c hc).1
        · simp only [List.mem_singleton] at hc
          subst hc; decide
      · rw [hres]
        cases name with
        | nil => exact absurd rfl hne
        | cons c t => simpa [startsWithDigit] using hnd
      · rw [hres]; exact kw_underscore_not_kw name hk
    · have hall := mapsub_allowed name
      by_cases hd : startsWithDigit (name.map subChar) = true
      · have hres : GM.to_java_identifier name = '_' :: name.map subChar := by
          simp [GM.to_java_identifier, hk, hd]
        refine ⟨by simp [hres], ?_, ?_, ?_⟩
        · intro c hc
          rw [hres, List.mem_cons] at hc
          rcases hc with hc | hc
          · subst hc; decide
          · exact hall c hc
        · rw [hres]
          simp only [startsWithDigit]
          decide
        · rw [hres]
          intro hmem
          exact (kw_chars _ hmem '_' (List.mem_cons_self _ _)).2 rfl
      · by_cases hs : name.map subChar = []
        · have hres : GM.to_java_identifier name = ['_'] := by
            simp [GM.to_java_identifier, hk, hd, hs]
          refine ⟨by simp [hres], ?_, by rw [hres]; decide, by rw [hres]; exact underscore_not_kw⟩
          intro c hc
          rw [hres] at hc
          simp only [List.mem_singleton] at hc
          subst hc; decide
        · have hres : GM.to_java_identifier name = name.map subChar := by
            simp [GM.to_java_identifier, hk, hd, hs]
          refine ⟨by rw [hres]; exact hs, ?_, by rw [hres]; simpa using hd, ?_⟩
          · intro c hc
            rw [hres] at hc
            exact hall c hc
          · rw [hres]
            intro hmem
            have hnu : '_' ∉ name.map subChar := fun hm => (kw_chars _ hmem '_' hm).2 rfl
            rw [mapsub_self name hnu] at hmem
            exact hk hmem
  · intro hk
    simp [GM.to_java_identifier, hk]

/-- C4 witness: the keyword clause evaluated at `class`. -/
theorem c4_witness : GM.to_java_identifier (str ("class")) = str ("class") ++ ['_'] :=
  (c4_sanitize (str ("class"))).2 (by decide)

/-- C5: the two scripts are one core algorithm: their parse passes agree
on every input, and for every class the (constant name, obfuscated value)
pairs of the plain emitter agree with the static-initializer assignments
of the inlining-resistant emitter, whose declaration list is exactly the
names of those pairs -- the scripts differ only in how the pairs are
rendered. -/
theorem c5_single_core :
    (∀ lines : List Str, GM.parse lines = GMF.parse lines) ∧
    (∀ info : Info,
      (GMF.fieldGen info).2 = GM.fieldPairs info ∧
      (GMF.fieldGen info).1 = (GM.fieldPairs info).map Prod.fst ∧
      (GMF.methodGen info).2 = GM.methodPairs info ∧
      (GMF.methodGen info).1 = (GM.methodPairs info).map Prod.fst) := by
  refine ⟨fun lines => rfl, fun info => ?_⟩
  have hf := fieldLoop_agree (sortByB fieldLe info.fields) []
  have hm := methodLoop_agree (sortByB methodLe info.methods) []
  exact ⟨hf.1, hf.2, hm.1, hm.2⟩

/-- C6 counterexample: the claim says the first occurrence of any
candidate is assigned unchanged.  On candidates `[A, A, A_2]` the renaming
of the duplicate `A` claims the name `A_2`, so the FIRST occurrence of the
candidate `A_2` (position 2, not preceded by any equal candidate) is
emitted as `A_2_2`, not unchanged. -/
theorem c6_counterexample :
    dedup [] [str ("A"), str ("A"), str ("A_2")] =
      [str ("A"), str ("A_2"), str ("A_2_2")] ∧
    [str ("A"), str ("A"), str ("A_2")].get ⟨2, by decide⟩ = str ("A_2") ∧
    str ("A_2") ∉ [str ("A"), str ("A")] ∧
    (dedup [] [str ("A"), str ("A"), str ("A_2")]).get ⟨2, by decide⟩ ≠ str ("A_2") := by
  decide

/-- C6 (amended): the deduplicator preserves length and produces pairwise
distinct names; a candidate is assigned unchanged exactly when it is not
among the previously assigned names (so the first occurrence of a
candidate is unchanged unless an earlier duplicate's renaming already
produced that very name); an already-used candidate receives the first
unused of `candidate_2, candidate_3, ...`; and the `Count`/`count`
collision emits `COUNT` then `COUNT_2`. -/
theorem c6_dedup (l : List Str) (i : Nat) (hi : i < l.length)
    (hi2 : i < (dedup [] l).length) :
    (dedup [] l).length = l.length ∧
    (dedup [] l).Nodup ∧
    (l.get ⟨i, hi⟩ ∉ (dedup [] l).take i →
      (dedup [] l).get ⟨i, hi2⟩ = l.get ⟨i, hi⟩) ∧
    (l.get ⟨i, hi⟩ ∈ (dedup [] l).take i →
      ∃ k, 2 ≤ k ∧ (dedup [] l).get ⟨i, hi2⟩ = suffixed (l.get ⟨i, hi⟩) k ∧
        suffixed (l.get ⟨i, hi⟩) k ∉ (dedup [] l).take i ∧
        ∀ j, 2 ≤ j → j < k → suffixed (l.get ⟨i, hi⟩) j ∈ (dedup [] l).take i) ∧
    GM.fieldPairs ⟨str ("x"), [⟨str ("o1"), str ("Count")⟩, ⟨str ("o2"), str ("count")⟩], []⟩ =
      [(str ("COUNT"), str ("o1")), (str ("COUNT_2"), str ("o2"))] := by
  obtain ⟨u, hu, heq⟩ := dedup_get_eq l [] i hi hi2
  have humem : ∀ x, x ∈ u ↔ x ∈ (dedup [] l).take i := by
    intro x; rw [hu x]; simp
  refine ⟨dedup_length l [], dedup_nodup l [], ?_, ?_, by decide⟩
  · intro hnot
    rw [heq, freeName_eq_of_not_mem u _ (fun hm => hnot ((humem _).mp hm))]
  · intro hmem
    obtain ⟨k, hk2, hfe, hnot, hmin⟩ := freeName_mem_spec u _ ((humem _).mpr hmem)
    exact ⟨k, hk2, by rw [heq, hfe], fun hm => hnot ((humem _).mpr hm),
      fun j hj2 hjk => (humem _).mp (hmin j hj2 hjk)⟩

/-- C6 witness: the amended theorem evaluated on two equal candidates. -/
theorem c6_witness :
    (dedup [] [str ("A"), str ("A")]).length = [str ("A"), str ("A")].length :=
  (c6_dedup [str ("A"), str ("A")] 1 (by decide) (by decide)).1

theorem lookup_modifyEntry_ne :
    ∀ (t : Table) (k k' : Str) (g : Info → Info), k' ≠ k →
      lookupInfo (modifyEntry t k g) k' = lookupInfo t k' := by
  intro t
  induction t with
  | nil =>
    intro k k' g h
    have hne : ¬ (k = k') := fun he => h he.symm
    simp [modifyEntry, lookupInfo, hne]
  | cons kv rest ih =>
    intro k k' g h
    obtain ⟨k0, v⟩ := kv
    by_cases h0 : k0 = k
    · subst h0
      have hne : ¬ (k0 = k') := fun he => h he.symm
      simp [modifyEntry, lookupInfo, hne]
    · simp only [modifyEntry, lookupInfo, h0, if_neg h0]
      by_cases h1 : k0 = k'
      · simp [lookupInfo, h1]
      · simp [lookupInfo, h1, ih k k' g h]

/-- C9: a member-shaped line is dropped (state unchanged) when no class
header has been seen; when a current class exists, a successful step
leaves the current class unchanged and either keeps the table or appends
exactly one field or method record to that class's entry; and the
append operations touch no other class's entry. -/
theorem c9_member_attachment :
    (∀ (st : PState) (line : Str), memberShape line → st.current = none →
      GM.parseLine st line = .ok st) ∧
    (∀ (st st' : PState) (line cls : Str), memberShape line → st.current = some cls →
      GM.parseLine st line = .ok st' →
      st'.current = some cls ∧
      (st'.table = st.table ∨ (∃ f, st'.table = addField st.table cls f) ∨
        (∃ m, st'.table = addMethod st.table cls m))) ∧
    (∀ (t : Table) (cls k : Str) (f : FieldRec), k ≠ cls →
      lookupInfo (addField t cls f) k = lookupInfo t k) ∧
    (∀ (t : Table) (cls k : Str) (m : MethodRec), k ≠ cls →
      lookupInfo (addMethod t cls m) k = lookupInfo t k) := by
  refine ⟨?_, ?_, ?_, ?_⟩
  · intro st line hms hcur
    obtain ⟨h1, h2, h3, _h4, _h5⟩ := hms
    simp only [GM.parseLine, hcur]
    rw [if_neg (not_or.mpr ⟨h1, h2⟩), if_neg h3]
  · intro st st' line cls hms hcur hok
    obtain ⟨h1, h2, h3, h4, h5⟩ := hms
    match hsp : splitFirst (str (" -> ")) (strip line) with
    | none =>
      have herr : GM.parseLine st line = .error () := by
        simp only [GM.parseLine, hcur]
        rw [if_neg (not_or.mpr ⟨h1, h2⟩), if_neg h3, if_pos (And.intro h4 h5), hsp]
      rw [herr] at hok
      cases hok
    | some q =>
      have heq : GM.parseLine st line =
          (if hasSub ['('] (strip q.1) = true then
            match reSearch (strip q.1) with
            | some tok =>
              .ok ⟨addMethod st.table cls ⟨q.2, lastSeg '.' tok, stripLineRange (strip q.1)⟩,
                   some cls⟩
            | none => .ok st
          else .ok ⟨addField st.table cls ⟨q.2, lastTok (strip q.1)⟩, some cls⟩) := by
        simp only [GM.parseLine, hcur]
        rw [if_neg (not_or.mpr ⟨h1, h2⟩), if_neg h3, if_pos (And.intro h4 h5), hsp]
      rw [heq] at hok
      by_cases hp : hasSub ['('] (strip q.1) = true
      · rw [if_pos hp] at hok
        match hre : reSearch (strip q.1) with
        | some tok =>
          rw [hre] at hok
          cases hok
          exact ⟨rfl, Or.inr (Or.inr ⟨_, rfl⟩)⟩
        | none =>
          rw [hre] at hok
          cases hok
          exact ⟨hcur, Or.inl rfl⟩
      · rw [if_neg hp] at hok
        cases hok
        exact ⟨rfl, Or.inr (Or.inl ⟨_, rfl⟩)⟩
  · intro t cls k f h
    exact lookup_modifyEntry_ne t cls k _ h
  · intro t cls k m h
    exact lookup_modifyEntry_ne t cls k _ h

/-- C9 witness: a member line before any class header is dropped. -/
theorem c9_witness :
    GM.parseLine ⟨[], none⟩ (str ("    int f -> g")) = .ok ⟨[], none⟩ :=
  c9_member_attachment.1 ⟨[], none⟩ (str ("    int f -> g")) (by decide) rfl

/-- C10: for every class the emission loops produce exactly one constant
per member whose base constant name is non-empty (members with an empty
base -- possible for a method whose name token ends in a dot, giving an
empty `named` -- are silently skipped), so the emitted list can be
strictly shorter than the parsed member list, as the concrete run shows. -/
theorem c10_skip_empty_base :
    (∀ info : Info,
      (GM.fieldPairs info).length =
        (sortByB fieldLe info.fields).countP
          (fun f => decide (GM.to_java_constant_name f.named ≠ [])) ∧
      (GM.methodPairs info).length =
        (sortByB methodLe info.methods).countP
          (fun m => decide (GM.to_java_constant_name m.named ≠ [])) ∧
      (sortByB fieldLe info.fields).length = info.fields.length ∧
      (sortByB methodLe info.methods).length = info.methods.length) ∧
    (GM.parse [str ("A -> a:"), str ("    void x.() -> m"), str ("    void f() -> n")] =
      .ok ⟨[(str ("A"), ⟨str ("a"), [], [⟨str ("m"), str (""), str ("void x.()")⟩,
        ⟨str ("n"), str ("f"), str ("void f()")⟩]⟩)], some (str ("A"))⟩) ∧
    (GM.methodPairs ⟨str ("a"), [], [⟨str ("m"), str (""), str ("void x.()")⟩,
        ⟨str ("n"), str ("f"), str ("void f()")⟩]⟩ = [(str ("F"), str ("n"))]) ∧
    ((GM.methodPairs ⟨str ("a"), [], [⟨str ("m"), str (""), str ("void x.()")⟩,
        ⟨str ("n"), str ("f"), str ("void f()")⟩]⟩).length <
      [⟨str ("m"), str (""), str ("void x.()")⟩,
       (⟨str ("n"), str ("f"), str ("void f()")⟩ : MethodRec)].length) := by
  refine ⟨fun info => ⟨fieldLoop_length _ _, methodLoop_length _ _,
    sortByB_length _ _, sortByB_length _ _⟩, by decide, by decide, by decide⟩
